import Mathlib

/-!
Verification of the version-views plugin core: the diff engine
(src/services/version-diff.ts) and the version storage service
(src/services/version-storage.ts), shallowly embedded in Lean.

Strings are modelled as their character lists (`String.data`); the
asynchronous vault API is modelled as explicit state passing over a
`StoreState` record.
-/

namespace VersionViews

/-! ## Diff engine (src/services/version-diff.ts)

The segment kinds of `DiffSegment` (`'equal' | 'insert' | 'delete'`). -/

inductive DiffType where
  | equal
  | insert
  | delete
deriving DecidableEq, Repr

/-- A `DiffSegment` of version-diff.ts: a kind and a text. -/
structure DiffSegment where
  type : DiffType
  text : String
deriving DecidableEq, Repr

/-- Modelled from the spec: the underlying character-level LCS length used to
choose diff branches. The diff-match-patch library (`diff_main`) is an external
dependency whose source is not under src/; the spec describes it as "a standard
longest-common-subsequence-based text diff (character-granularity)". Fuel-based
so that the kernel can evaluate it; the wrapper below always supplies enough
fuel. -/
def lcsLenF : Nat → List Char → List Char → Nat
  | _, [], _ => 0
  | _, _ :: _, [] => 0
  | 0, _ :: _, _ :: _ => 0
  | f + 1, a :: as, b :: bs =>
    if a = b then lcsLenF f as bs + 1
    else max (lcsLenF f (a :: as) bs) (lcsLenF f as (b :: bs))

/-- Modelled from the spec: LCS length of two character lists. -/
def lcsLen (as bs : List Char) : Nat := lcsLenF (as.length + bs.length) as bs

/-- Modelled from the spec: a character-granularity LCS-based raw edit script,
standing in for diff-match-patch's `diff_main`. At each step, if the heads
agree it emits an `equal` character; otherwise it consumes from the side whose
removal preserves the larger LCS. Fuel-based (one unit per consumed
character). -/
def diffF : Nat → List Char → List Char → List (DiffType × List Char)
  | _, [], [] => []
  | _, [], b :: bs => [(DiffType.insert, b :: bs)]
  | _, a :: as, [] => [(DiffType.delete, a :: as)]
  | 0, _ :: _, _ :: _ => []
  | f + 1, a :: as, b :: bs =>
    if a = b then (DiffType.equal, [a]) :: diffF f as bs
    else if lcsLen as (b :: bs) ≥ lcsLen (a :: as) bs then
      (DiffType.delete, [a]) :: diffF f as (b :: bs)
    else
      (DiffType.insert, [b]) :: diffF f (a :: as) bs

/-- Modelled from the spec: the semantic cleanup pass
(`diff_cleanupSemantic`), described as coalescing fragment-level noise "without
changing net content". Modelled as merging adjacent segments of the same
kind. -/
def cleanupSemantic : List (DiffType × List Char) → List (DiffType × List Char)
  | [] => []
  | s :: rest =>
    match cleanupSemantic rest with
    | [] => [s]
    | s2 :: rest2 =>
      if s.1 = s2.1 then (s.1, s.2 ++ s2.2) :: rest2 else s :: s2 :: rest2

/-- The diff pipeline on character lists: raw edit script then cleanup, as in
`computeDiff` (diff_main followed by diff_cleanupSemantic). -/
def computeDiffL (as bs : List Char) : List (DiffType × List Char) :=
  cleanupSemantic (diffF (as.length + bs.length) as bs)

/-- `VersionDiffService.computeDiff(oldText, newText)`. -/
def computeDiff (oldText newText : String) : List DiffSegment :=
  (computeDiffL oldText.data newText.data).map (fun s => ⟨s.1, String.mk s.2⟩)

/-- In-order concatenation of the texts of the segments whose kind satisfies
`keep` (character-list level). -/
def concatW (keep : DiffType → Bool) : List (DiffType × List Char) → List Char
  | [] => []
  | s :: rest => (if keep s.1 then s.2 else []) ++ concatW keep rest

/-- In-order concatenation of the texts of the segments whose kind satisfies
`keep`. -/
def concatOfTypes (keep : DiffType → Bool) : List DiffSegment → String
  | [] => ""
  | s :: rest => (if keep s.type then s.text else "") ++ concatOfTypes keep rest

/-! ## Diff renderer (`renderSideBySide` and helpers of version-diff.ts) -/

/-- Whitespace as recognized by trimming (space, tab, line feed, carriage
return; the characters relevant to this code base). -/
def isWsChar (c : Char) : Bool := c = ' ' || c = '\t' || c = '\n' || c = '\r'

/-- `String.prototype.trim()`: strip leading and trailing whitespace. -/
def trimL (l : List Char) : List Char :=
  ((l.dropWhile isWsChar).reverse.dropWhile isWsChar).reverse

/-- Replace every occurrence of the character `c` by `repl`, as a
`.replace(/c/g, repl)` with a single-character pattern. -/
def replaceChar (c : Char) (repl : List Char) : List Char → List Char
  | [] => []
  | x :: xs => (if x = c then repl else [x]) ++ replaceChar c repl xs

/-- The apostrophe character (code point 39). -/
def apos : Char := Char.ofNat 39

/-- `escapeHtml`: the five chained global replaces, in source order
(`&`, then `<`, `>`, `"`, and the apostrophe). -/
def escapeHtml (l : List Char) : List Char :=
  replaceChar apos "&#039;".data
    (replaceChar '"' "&quot;".data
      (replaceChar '>' "&gt;".data
        (replaceChar '<' "&lt;".data
          (replaceChar '&' "&amp;".data l))))

/-- One-pass matcher for `.replace(/<[^>]+>/g, '')`: `pending` holds the
characters of a candidate tag (a seen `<` and everything after it). On `>`:
a pending of length at least two is a complete tag and is dropped; a pending
of exactly `<` cannot match (the class `[^>]+` needs at least one character),
so both characters are emitted; at end of input an unclosed pending is
emitted literally. -/
def stripTagsGo : List Char → List Char → List Char
  | pending, [] => pending
  | pending, c :: rest =>
    if c = '>' then
      match pending with
      | [] => c :: stripTagsGo [] rest
      | [lt] => lt :: c :: stripTagsGo [] rest
      | _ :: _ :: _ => stripTagsGo [] rest
    else if c = '<' then
      match pending with
      | [] => stripTagsGo ['<'] rest
      | p0 :: ptail => stripTagsGo ((p0 :: ptail) ++ [c]) rest
    else
      match pending with
      | [] => c :: stripTagsGo [] rest
      | p0 :: ptail => stripTagsGo ((p0 :: ptail) ++ [c]) rest

/-- `line.replace(/<[^>]+>/g, '')`: remove HTML tags. -/
def stripTags (l : List Char) : List Char := stripTagsGo [] l

/-- `text.split(sep)` for a single-character separator. -/
def splitOnChar (sep : Char) : List Char → List (List Char)
  | [] => [[]]
  | c :: rest =>
    let r := splitOnChar sep rest
    if c = sep then [] :: r
    else
      match r with
      | [] => [[c]]
      | x :: xs => (c :: x) :: xs

/-- `text.endsWith('\n')`. -/
def endsWithNl (l : List Char) : Bool := l.getLast? = some '\n'

/-- The delete marker wrapper of `renderSideBySide`. -/
def wrapDel (l : List Char) : List Char :=
  "<del class=\"version-diff-delete\">".data ++ l ++ "</del>".data

/-- The insert marker wrapper of `renderSideBySide`. -/
def wrapIns (l : List Char) : List Char :=
  "<ins class=\"version-diff-insert\">".data ++ l ++ "</ins>".data

/-- The mutable state of the `renderSideBySide` loop: the two output line
arrays and the two pending partial-line accumulators. -/
structure RState where
  leftLines : List (List Char)
  rightLines : List (List Char)
  currentOld : List Char
  currentNew : List Char
deriving DecidableEq, Repr

/-- The body of the inner `for (let i = 0; ...)` loop of `renderSideBySide`
for one line of one diff segment. `endsNl` is `text.endsWith('\n')` for the
whole segment, `isLast` is `i === lines.length - 1`. Note that in the insert
case a completed line is pushed as plain escaped text, without the insert
wrapper. -/
def processDiffLine (t : DiffType) (endsNl isLast : Bool) (line : List Char)
    (st : RState) : RState :=
  let lwn := if isLast then line else line ++ ['\n']
  match t with
  | DiffType.insert =>
    let cn := st.currentNew ++ lwn
    if !isLast || endsNl then
      { st with rightLines := st.rightLines ++ [escapeHtml cn], currentNew := [] }
    else
      { st with currentNew := cn }
  | DiffType.delete =>
    let co := st.currentOld ++ lwn
    if !isLast || endsNl then
      { st with leftLines := st.leftLines ++ [wrapDel (escapeHtml co)], currentOld := [] }
    else
      { st with currentOld := co }
  | DiffType.equal =>
    let st1 :=
      if st.currentOld.isEmpty then st
      else { st with leftLines := st.leftLines ++ [wrapDel (escapeHtml st.currentOld)],
                     currentOld := [] }
    let st2 :=
      if st1.currentNew.isEmpty then st1
      else { st1 with rightLines := st1.rightLines ++ [wrapIns (escapeHtml st1.currentNew)],
                      currentNew := [] }
    { st2 with leftLines := st2.leftLines ++ [escapeHtml lwn],
               rightLines := st2.rightLines ++ [escapeHtml lwn] }

/-- The inner loop of `renderSideBySide` over the split lines of one
segment. -/
def processSegLines (t : DiffType) (endsNl : Bool) :
    List (List Char) → RState → RState
  | [], st => st
  | [line], st => processDiffLine t endsNl true line st
  | line :: l2 :: rest, st =>
    processSegLines t endsNl (l2 :: rest) (processDiffLine t endsNl false line st)

/-- One iteration of the outer `for (const diff of diffs)` loop. -/
def processSeg (st : RState) (seg : DiffType × List Char) : RState :=
  processSegLines seg.1 (endsWithNl seg.2) (splitOnChar '\n' seg.2) st

/-- The initial loop state (empty outputs, empty accumulators). -/
def initR : RState := ⟨[], [], [], []⟩

/-- The full segment loop of `renderSideBySide`. -/
def processAll (diffs : List (DiffType × List Char)) : RState :=
  diffs.foldl processSeg initR

/-- The trailing "flush any remaining content" for the old pane. -/
def finalFlushL (st : RState) : List (List Char) :=
  st.leftLines ++ (if st.currentOld.isEmpty then [] else [wrapDel (escapeHtml st.currentOld)])

/-- The trailing "flush any remaining content" for the new pane. -/
def finalFlushR (st : RState) : List (List Char) :=
  st.rightLines ++ (if st.currentNew.isEmpty then [] else [wrapIns (escapeHtml st.currentNew)])

/-- Both panes of `renderSideBySide` before the whitespace-line filter:
`leftLines` and `rightLines` after the loop and the final flush. -/
def rawPanes (oldText newText : String) : List (List Char) × List (List Char) :=
  let st := processAll (computeDiffL oldText.data newText.data)
  (finalFlushL st, finalFlushR st)

/-- The filter predicate `line => line.trim().length > 0`. -/
def keepLine (l : List Char) : Bool := decide (0 < (trimL l).length)

/-- `filteredLeftLines` and `filteredRightLines` of `renderSideBySide`. -/
def filteredPanes (oldText newText : String) : List (List Char) × List (List Char) :=
  ((rawPanes oldText newText).1.filter keepLine,
   (rawPanes oldText newText).2.filter keepLine)

/-- The frontmatter marker wrapper of `markFrontmatter`. -/
def wrapFm (l : List Char) : List Char :=
  "<span class=\"version-diff-frontmatter\">".data ++ l ++ "</span>".data

/-- The `markFrontmatter` delimiter test: the tag-stripped, trimmed text
content equals `---`. -/
def isFmDelim (l : List Char) : Bool := trimL (stripTags l) = "---".data

/-- The stateful `lines.map` of `markFrontmatter`, with the two flags
`inFrontmatter` and `frontmatterFound`. A delimiter line opens the block if
none was found yet, closes it if it is open; once closed, nothing further is
wrapped (the fall-through returns the line unmarked). -/
def markFmGo : Bool → Bool → List (List Char) → List (List Char)
  | _, _, [] => []
  | inFm, found, line :: rest =>
    if isFmDelim line then
      if !found then wrapFm line :: markFmGo true true rest
      else if inFm then wrapFm line :: markFmGo false found rest
      else line :: markFmGo inFm found rest
    else if inFm then wrapFm line :: markFmGo inFm found rest
    else line :: markFmGo inFm found rest

/-- `markFrontmatter(lines)` of version-diff.ts. -/
def markFrontmatter (lines : List (List Char)) : List (List Char) :=
  markFmGo false false lines

/-- The two pane line lists returned by `renderSideBySide` (filtered, then
frontmatter-marked), before they are joined with newlines. The same
`markFrontmatter` is applied to each pane independently. -/
def renderLines (oldText newText : String) : List (List Char) × List (List Char) :=
  (markFrontmatter (filteredPanes oldText newText).1,
   markFrontmatter (filteredPanes oldText newText).2)

/-- `lines.join('\n')`. -/
def joinLines : List (List Char) → List Char
  | [] => []
  | [l] => l
  | l :: l2 :: rest => l ++ '\n' :: joinLines (l2 :: rest)

/-- `VersionDiffService.renderSideBySide(oldText, newText)`: the final
`{left, right}` strings. -/
def renderSideBySide (oldText newText : String) : String × String :=
  (String.mk (joinLines (renderLines oldText newText).1),
   String.mk (joinLines (renderLines oldText newText).2))

theorem concatW_diffF_old (keep : DiffType → Bool)
    (hE : keep DiffType.equal = true) (hD : keep DiffType.delete = true)
    (hI : keep DiffType.insert = false) :
    ∀ (f : Nat) (as bs : List Char), as.length + bs.length ≤ f →
      concatW keep (diffF f as bs) = as := by
  intro f
  induction f with
  | zero =>
    intro as bs h
    have ha : as = [] := by
      cases as with
      | nil => rfl
      | cons x xs => simp at h
    have hb : bs = [] := by
      cases bs with
      | nil => rfl
      | cons x xs => simp at h
    subst ha; subst hb
    simp [diffF, concatW]
  | succ f ih =>
    intro as bs h
    cases as with
    | nil =>
      cases bs with
      | nil => simp [diffF, concatW]
      | cons b bs => simp [diffF, concatW, hI]
    | cons a as =>
      cases bs with
      | nil => simp [diffF, concatW, hD]
      | cons b bs =>
        simp only [diffF]
        by_cases hab : a = b
        · subst hab
          simp only [if_pos rfl, concatW, hE, if_pos]
          have := ih as bs (by simp at h; omega)
          simp [this]
        · rw [if_neg hab]
          by_cases hc : lcsLen as (b :: bs) ≥ lcsLen (a :: as) bs
          · rw [if_pos hc]
            simp only [concatW, hD, if_pos]
            have := ih as (b :: bs) (by simp at h ⊢; omega)
            simp [this]
          · rw [if_neg hc]
            simp only [concatW, hI, if_neg]
            have := ih (a :: as) bs (by simp at h ⊢; omega)
            simp [this]

theorem concatW_diffF_new (keep : DiffType → Bool)
    (hE : keep DiffType.equal = true) (hD : keep DiffType.delete = false)
    (hI : keep DiffType.insert = true) :
    ∀ (f : Nat) (as bs : List Char), as.length + bs.length ≤ f →
      concatW keep (diffF f as bs) = bs := by
  intro f
  induction f with
  | zero =>
    intro as bs h
    have ha : as = [] := by
      cases as with
      | nil => rfl
      | cons x xs => simp at h
    have hb : bs = [] := by
      cases bs with
      | nil => rfl
      | cons x xs => simp at h
    subst ha; subst hb
    simp [diffF, concatW]
  | succ f ih =>
    intro as bs h
    cases as with
    | nil =>
      cases bs with
      | nil => simp [diffF, concatW]
      | cons b bs => simp [diffF, concatW, hI]
    | cons a as =>
      cases bs with
      | nil => simp [diffF, concatW, hD]
      | cons b bs =>
        simp only [diffF]
        by_cases hab : a = b
        · subst hab
          simp only [if_pos rfl, concatW, hE, if_pos]
          have := ih as bs (by simp at h; omega)
          simp [this]
        · rw [if_neg hab]
          by_cases hc : lcsLen as (b :: bs) ≥ lcsLen (a :: as) bs
          · rw [if_pos hc]
            simp only [concatW, hD, if_neg]
            have := ih as (b :: bs) (by simp at h ⊢; omega)
            simp [this]
          · rw [if_neg hc]
            simp only [concatW, hI, if_pos]
            have := ih (a :: as) bs (by simp at h ⊢; omega)
            simp [this]

theorem concatW_cleanupSemantic (keep : DiffType → Bool) :
    ∀ l, concatW keep (cleanupSemantic l) = concatW keep l := by
  intro l
  induction l with
  | nil => rfl
  | cons s rest ih =>
    simp only [cleanupSemantic]
    cases hrec : cleanupSemantic rest with
    | nil =>
      have : concatW keep rest = [] := by rw [← ih, hrec]; rfl
      simp [concatW, this]
    | cons s2 rest2 =>
      dsimp only
      have h2 : concatW keep rest = concatW keep (s2 :: rest2) := by
        rw [← ih, hrec]
      by_cases hts : s.1 = s2.1
      · rw [if_pos hts]
        simp only [concatW, h2, hts]
        by_cases hk : keep s2.1 = true
        · simp [hk]
        · simp at hk
          simp [hk]
      · rw [if_neg hts]
        simp only [concatW, h2]

theorem string_mk_append (a b : List Char) :
    String.mk a ++ String.mk b = String.mk (a ++ b) := rfl

theorem concatOfTypes_map (keep : DiffType → Bool) :
    ∀ l : List (DiffType × List Char),
      concatOfTypes keep (l.map (fun s => ⟨s.1, String.mk s.2⟩)) =
        String.mk (concatW keep l) := by
  intro l
  induction l with
  | nil => rfl
  | cons s rest ih =>
    simp only [List.map_cons, concatOfTypes, concatW, ih]
    by_cases hk : keep s.1 = true
    · simp only [hk, if_pos]
      exact string_mk_append s.2 (concatW keep rest)
    · simp at hk
      simp only [hk]
      simp

/-- C1: for every pair of strings (A, B), concatenating in order the text of
the segments of `computeDiff A B` whose type is equal or insert yields exactly
B, and concatenating in order the text of the segments whose type is equal or
delete yields exactly A. -/
theorem computeDiff_roundTrip (A B : String) :
    concatOfTypes (fun t => t = DiffType.equal ∨ t = DiffType.insert) (computeDiff A B) = B ∧
    concatOfTypes (fun t => t = DiffType.equal ∨ t = DiffType.delete) (computeDiff A B) = A := by
  constructor
  · show concatOfTypes _ ((computeDiffL A.data B.data).map _) = B
    rw [concatOfTypes_map, computeDiffL, concatW_cleanupSemantic,
      concatW_diffF_new _ (by decide) (by decide) (by decide)
        (A.data.length + B.data.length) A.data B.data (Nat.le_refl _)]
  · show concatOfTypes _ ((computeDiffL A.data B.data).map _) = A
    rw [concatOfTypes_map, computeDiffL, concatW_cleanupSemantic,
      concatW_diffF_old _ (by decide) (by decide) (by decide)
        (A.data.length + B.data.length) A.data B.data (Nat.le_refl _)]

/-! ## Version storage (src/services/version-storage.ts)

The vault is modelled as explicit state: the live document's content, the
per-document index file, and the children of the per-document version folder.
Asynchronous vault calls are modelled as pure state transitions that
succeed. -/

/-- `VersionMeta` of src/types.ts. `name` and `description` are optional
(`none` models the JavaScript `undefined`). -/
structure VersionMeta where
  filename : String
  timestamp : Nat
  name : Option String
  description : Option String
  originalPath : String
deriving DecidableEq, Repr

/-- `VersionIndex` of version-storage.ts. -/
structure VersionIndex where
  versions : List VersionMeta
  lastUpdated : Nat
deriving DecidableEq, Repr

/-- The state of the stored `versions.json` file: absent, present but
unparseable (JSON.parse throws), or present with a parsed index. -/
inductive IndexFileState where
  | missing
  | corrupt
  | stored (index : VersionIndex)
deriving DecidableEq, Repr

/-- One child of the per-document version folder: a file name and its
content. -/
structure VaultChild where
  name : String
  content : String
deriving DecidableEq, Repr

/-- The vault state seen by `VersionStorageService` for one document. -/
structure StoreState where
  doc : String
  indexFile : IndexFileState
  children : List VaultChild
deriving DecidableEq, Repr

/-- `readVersionIndex`: a missing file and a parse failure both fall through
to the default `{ versions: [], lastUpdated: 0 }`. -/
def readVersionIndex : IndexFileState → VersionIndex
  | IndexFileState.stored i => i
  | IndexFileState.missing => ⟨[], 0⟩
  | IndexFileState.corrupt => ⟨[], 0⟩

/-- The `versions` list currently visible through `readVersionIndex`. -/
def versionsOf (st : StoreState) : List VersionMeta :=
  (readVersionIndex st.indexFile).versions

/-- `getVersions`: read the index and return its `versions` as-is. -/
def getVersions (st : StoreState) : List VersionMeta := versionsOf st

/-- JavaScript `str.replace(pat, repl)` with a string pattern: replace the
first occurrence only. -/
def replaceFirstL (pat repl : List Char) : List Char → List Char
  | [] => []
  | c :: rest =>
    if List.isPrefixOf pat (c :: rest) then repl ++ (c :: rest).drop pat.length
    else c :: replaceFirstL pat repl rest

/-- The leading digit run of a character list as a number, if nonempty. -/
def digitsVal (l : List Char) : Option Nat :=
  let ds := l.takeWhile Char.isDigit
  if ds.isEmpty then none
  else some (ds.foldl (fun a c => a * 10 + (c.toNat - 48)) 0)

/-- JavaScript `parseInt(s)` (radix 10): skip leading whitespace, accept an
optional sign, then read the leading digit run; no digits is NaN, modelled as
`none`. (The hexadecimal `0x` auto-radix of parseInt is not modelled; the
file names parsed here are decimal.) -/
def parseIntJS (l : List Char) : Option Int :=
  let l1 := l.dropWhile isWsChar
  match l1 with
  | '-' :: rest => (digitsVal rest).map (fun n => -(n : Int))
  | '+' :: rest => (digitsVal rest).map (fun n => (n : Int))
  | _ => (digitsVal l1).map (fun n => (n : Int))

/-- The per-child timestamp test shared by `getVersionContent` and
`deleteVersion`: the name starts with `version_` and ends with `.md`; after
stripping the first `version_` and the first `.md` occurrence, splitting on
`_` gives at least two parts, and `parseInt` of the first part equals the
timestamp. -/
def childMatches (name : String) (t : Nat) : Bool :=
  List.isPrefixOf "version_".data name.data &&
  List.isSuffixOf ".md".data name.data &&
  (match splitOnChar '_' (replaceFirstL ".md".data []
      (replaceFirstL "version_".data [] name.data)) with
   | p0 :: _ :: _ => parseIntJS p0 = some (t : Int)
   | _ => false)

/-- The `for (const child of folder.children)` loop of `deleteVersion`:
delete the first matching content file, then `break`. -/
def deleteFirstChild (t : Nat) : List VaultChild → List VaultChild
  | [] => []
  | c :: rest => if childMatches c.name t then rest else c :: deleteFirstChild t rest

/-- `deleteVersion(file, timestamp)`: remove every index entry with that
timestamp, persist the index (its `lastUpdated` is written back unchanged),
then delete the first matching content file. -/
def deleteVersion (st : StoreState) (t : Nat) : StoreState :=
  let index := readVersionIndex st.indexFile
  let index2 : VersionIndex :=
    ⟨index.versions.filter (fun v => v.timestamp ≠ t), index.lastUpdated⟩
  { st with
    indexFile := IndexFileState.stored index2,
    children := deleteFirstChild t st.children }

/-- The child scan of `getVersionContent`: return the content of the first
matching version file. -/
def findChildContent (t : Nat) : List VaultChild → Option String
  | [] => none
  | c :: rest => if childMatches c.name t then some c.content else findChildContent t rest

/-- `getVersionContent(file, timestamp)`: not-found unless the timestamp is
in the index and a matching content file exists. -/
def getVersionContent (st : StoreState) (t : Nat) : Option String :=
  match (versionsOf st).find? (fun v => v.timestamp = t) with
  | none => none
  | some _ => findChildContent t st.children

/-- `restoreVersion(file, timestamp)`: read the snapshot content; on
not-found fail and change nothing; otherwise overwrite the live document with
it (`vault.modify`) and succeed. -/
def restoreVersion (st : StoreState) (t : Nat) : StoreState × Bool :=
  match getVersionContent st t with
  | none => (st, false)
  | some content => ({ st with doc := content }, true)

/-- `Array.prototype.findIndex`, with `-1` modelled as `none`. -/
def findIndexT (p : VersionMeta → Bool) : List VersionMeta → Option Nat
  | [] => none
  | v :: rest => if p v then some 0 else (findIndexT p rest).map (fun i => i + 1)

/-- `updateVersion(file, timestamp, updates)`: locate the entry by timestamp
(failure if absent), overwrite exactly the provided fields (a provided empty
string overwrites; an absent field is left alone), persist the index
(`lastUpdated` written back unchanged). -/
def updateVersion (st : StoreState) (t : Nat) (uName uDesc : Option String) :
    StoreState × Bool :=
  let index := readVersionIndex st.indexFile
  match findIndexT (fun v => v.timestamp = t) index.versions with
  | none => (st, false)
  | some i =>
    match index.versions[i]? with
    | none => (st, false)
    | some v =>
      let v1 := match uName with
        | some n => { v with name := some n }
        | none => v
      let v2 := match uDesc with
        | some d => { v1 with description := some d }
        | none => v1
      let index2 : VersionIndex := ⟨index.versions.set i v2, index.lastUpdated⟩
      ({ st with indexFile := IndexFileState.stored index2 }, true)

/-- A save request: the `Date.now()` reading, the random disambiguator, and
the user-provided name and description. -/
structure SaveReq where
  timestamp : Nat
  vid : Nat
  name : Option String
  description : Option String
deriving DecidableEq, Repr

/-- The stored content file name `version_<timestamp>_<vid>.md`. -/
def contentFileName (t vid : Nat) : String :=
  "version_" ++ toString t ++ "_" ++ toString vid ++ ".md"

/-- The `VersionMeta` recorded by `saveVersion` (the computed `autoName` is
display-only and is never persisted as the name). -/
def toMeta (fileName filePath : String) (r : SaveReq) : VersionMeta :=
  ⟨fileName, r.timestamp, r.name, r.description, filePath⟩

/-- `cleanupOldVersions` (internal, run after every save): if the index
length exceeds `maxVersions`, delete every entry beyond the first
`maxVersions` via `deleteVersion`, one at a time. -/
def cleanupOldVersions (maxVersions : Nat) (st : StoreState) : StoreState :=
  let index := readVersionIndex st.indexFile
  if maxVersions < index.versions.length then
    ((index.versions.drop maxVersions).foldl
      (fun s v => deleteVersion s v.timestamp) st)
  else st

/-- `saveVersion(file, name?, description?)`: write the current document
content as a new content file, read the index, prepend the new meta, set
`lastUpdated` to the save timestamp, persist, then run retention cleanup.
Returns the new meta. -/
def saveVersion (maxVersions : Nat) (fileName filePath : String)
    (st : StoreState) (r : SaveReq) : StoreState × VersionMeta :=
  let newChild : VaultChild := ⟨contentFileName r.timestamp r.vid, st.doc⟩
  let st1 := { st with children := st.children ++ [newChild] }
  let index := readVersionIndex st1.indexFile
  let meta := toMeta fileName filePath r
  let index2 : VersionIndex := ⟨meta :: index.versions, r.timestamp⟩
  let st2 := { st1 with indexFile := IndexFileState.stored index2 }
  (cleanupOldVersions maxVersions st2, meta)

/-- A sequence of saves against the same document, in order. -/
def saveSeq (maxVersions : Nat) (fileName filePath : String) :
    StoreState → List SaveReq → StoreState
  | st, [] => st
  | st, r :: rest =>
    saveSeq maxVersions fileName filePath
      (saveVersion maxVersions fileName filePath st r).1 rest

/-! ### Renderer lemmas and claim theorems -/

theorem stripTagsGo_sublist :
    ∀ (l pending : List Char), List.Sublist (stripTagsGo pending l) (pending ++ l) := by
  intro l
  induction l with
  | nil =>
    intro pending
    simp [stripTagsGo]
  | cons c rest ih =>
    intro pending
    simp only [stripTagsGo]
    by_cases hgt : c = '>'
    · rw [if_pos hgt]
      cases pending with
      | nil =>
        simpa using List.Sublist.cons₂ c (ih [])
      | cons p0 ptail =>
        cases ptail with
        | nil =>
          simpa using List.Sublist.cons₂ p0 (List.Sublist.cons₂ c (ih []))
        | cons p1 prest =>
          have h1 : List.Sublist (stripTagsGo [] rest) rest := by simpa using ih []
          have h2 : List.Sublist rest ((p0 :: p1 :: prest) ++ c :: rest) :=
            ((List.Sublist.refl rest).cons c).trans
              (List.sublist_append_right (p0 :: p1 :: prest) (c :: rest))
          exact h1.trans h2
    · rw [if_neg hgt]
      by_cases hlt : c = '<'
      · rw [if_pos hlt]
        cases pending with
        | nil =>
          subst hlt
          simpa using ih ['<']
        | cons p0 ptail =>
          have := ih ((p0 :: ptail) ++ [c])
          simpa [List.append_assoc] using this
      · rw [if_neg hlt]
        cases pending with
        | nil =>
          simpa using List.Sublist.cons₂ c (ih [])
        | cons p0 ptail =>
          have := ih ((p0 :: ptail) ++ [c])
          simpa [List.append_assoc] using this

theorem stripTags_sublist (l : List Char) : List.Sublist (stripTags l) l :=
  stripTagsGo_sublist l []

theorem trimL_eq_nil_iff (l : List Char) :
    trimL l = [] ↔ ∀ c ∈ l, isWsChar c = true := by
  unfold trimL
  rw [List.reverse_eq_nil_iff, List.dropWhile_eq_nil_iff]
  constructor
  · intro h c hc
    rcases List.mem_append.mp
        ((List.takeWhile_append_dropWhile (p := isWsChar) (l := l)) ▸ hc) with hm | hm
    · exact List.mem_takeWhile_imp hm
    · exact h c (List.mem_reverse.mpr hm)
  · intro h c hc
    exact h c (List.dropWhile_sublist _ |>.subset (List.mem_reverse.mp hc))

theorem trimL_stripTags_ne_nil (l : List Char)
    (h : trimL (stripTags l) ≠ []) : trimL l ≠ [] := by
  intro hl
  apply h
  rw [trimL_eq_nil_iff] at hl ⊢
  intro c hc
  exact hl c ((stripTags_sublist l).subset hc)

theorem keepLine_iff (l : List Char) : keepLine l = true ↔ trimL l ≠ [] := by
  unfold keepLine
  rw [decide_eq_true_eq, List.length_pos]

/-- C2 (code bug): evaluating `renderSideBySide` at old text `""` and new
text `"x\ny"`: the completed line `x` that the insert segment flushes when its
first line boundary is crossed is pushed to the new-pane output as plain
escaped text, without the `<ins class="version-diff-insert">` wrapper, while
the end-of-input flush of the pending `y` is wrapped. The delete branch, by
contrast, wraps its boundary flushes, so the claimed symmetry fails. -/
theorem renderSideBySide_insertLine_unwrapped :
    (renderLines "" "x\ny").2 =
      ["x\n".data, "<ins class=\"version-diff-insert\">y</ins>".data] := by decide

/-- C7 counterexample: for old text `" \nA"` and new text `"A"`, the old pane
output of `renderSideBySide` retains two delete-marked lines whose escaped,
tag-stripped content is pure whitespace; the claim says every such line is
dropped. (The filter trims the raw line text, marker markup included, so a
marked line always survives it.) -/
theorem renderSideBySide_keeps_wsOnly_marked_line :
    (renderLines " \nA" "A").1.filter (fun l => (trimL (stripTags l)).isEmpty) =
      ["<del class=\"version-diff-delete\"> \n</del>".data,
       "<del class=\"version-diff-delete\"></del>".data] := by decide

/-- C7 (amended): `renderSideBySide` drops from each pane exactly the lines
whose raw text — markup included — trims to empty: a line is kept iff its raw
text has a non-whitespace character. Consequently a marked line is never
dropped even when its inner text is pure whitespace, and every line with
non-whitespace tag-stripped content is kept. -/
theorem renderFilter_spec (oldText newText : String) :
    (∀ l, l ∈ (filteredPanes oldText newText).1 ↔
        l ∈ (rawPanes oldText newText).1 ∧ trimL l ≠ []) ∧
    (∀ l, l ∈ (filteredPanes oldText newText).2 ↔
        l ∈ (rawPanes oldText newText).2 ∧ trimL l ≠ []) ∧
    (∀ l, l ∈ (rawPanes oldText newText).1 → trimL (stripTags l) ≠ [] →
        l ∈ (filteredPanes oldText newText).1) ∧
    (∀ l, l ∈ (rawPanes oldText newText).2 → trimL (stripTags l) ≠ [] →
        l ∈ (filteredPanes oldText newText).2) := by
  refine ⟨?_, ?_, ?_, ?_⟩
  · intro l
    rw [filteredPanes, List.mem_filter, keepLine_iff]
  · intro l
    rw [filteredPanes, List.mem_filter, keepLine_iff]
  · intro l hm hs
    rw [filteredPanes, List.mem_filter, keepLine_iff]
    exact ⟨hm, trimL_stripTags_ne_nil l hs⟩
  · intro l hm hs
    rw [filteredPanes, List.mem_filter, keepLine_iff]
    exact ⟨hm, trimL_stripTags_ne_nil l hs⟩

theorem renderFilter_spec_witness :
    "A".data ∈ (filteredPanes " \nA" "A").1 :=
  (renderFilter_spec " \nA" "A").2.2.1 "A".data (by decide) (by decide)

theorem markFmGo_closed : ∀ l, markFmGo false true l = l := by
  intro l
  induction l with
  | nil => rfl
  | cons line rest ih =>
    simp only [markFmGo]
    by_cases hd : isFmDelim line = true
    · simp [hd, ih]
    · simp only [Bool.not_eq_true] at hd
      simp [hd, ih]

theorem markFmGo_open :
    ∀ (mid : List (List Char)) (lclose : List Char) (after : List (List Char)),
      (∀ x ∈ mid, isFmDelim x = false) → isFmDelim lclose = true →
      markFmGo true true (mid ++ lclose :: after) =
        mid.map wrapFm ++ wrapFm lclose :: after := by
  intro mid
  induction mid with
  | nil =>
    intro lclose after _ hc
    simp [markFmGo, hc, markFmGo_closed]
  | cons x mid ih =>
    intro lclose after hmid hc
    have hx : isFmDelim x = false := hmid x (List.mem_cons_self x mid)
    simp only [List.cons_append, markFmGo, hx]
    simp only [Bool.false_eq_true, if_false, if_true, List.append_eq]
    rw [ih lclose after (fun y hy => hmid y (List.mem_cons_of_mem x hy)) hc]
    simp

/-- C9: given rendered pane lines starting with a `---` delimiter line, with a
later closing `---` delimiter line and no delimiter in between,
`markFrontmatter` wraps every line from the opening delimiter through the
closing delimiter (inclusive) in the frontmatter marker span and returns every
later line unchanged — in particular a later `---` pair is not treated as
frontmatter. `renderSideBySide` applies this same `markFrontmatter`
independently and identically to both panes (second conjunct). -/
theorem markFrontmatter_spec :
    (∀ (l0 : List Char) (mid : List (List Char)) (lclose : List Char)
        (after : List (List Char)),
      isFmDelim l0 = true → (∀ x ∈ mid, isFmDelim x = false) →
      isFmDelim lclose = true →
      markFrontmatter (l0 :: (mid ++ lclose :: after)) =
        wrapFm l0 :: (mid.map wrapFm ++ wrapFm lclose :: after)) ∧
    (∀ oldText newText : String,
      renderLines oldText newText =
        (markFrontmatter (filteredPanes oldText newText).1,
         markFrontmatter (filteredPanes oldText newText).2)) := by
  constructor
  · intro l0 mid lclose after h0 hmid hc
    unfold markFrontmatter
    simp only [markFmGo, h0, if_true]
    rw [markFmGo_open mid lclose after hmid hc]
    simp
  · intro oldText newText
    rfl

theorem markFrontmatter_spec_witness :
    markFrontmatter ["---".data, "title: x".data, "---".data, "body".data, "---".data] =
      [wrapFm "---".data, wrapFm "title: x".data, wrapFm "---".data,
       "body".data, "---".data] :=
  markFrontmatter_spec.1 "---".data ["title: x".data] "---".data
    ["body".data, "---".data] (by decide) (by decide) (by decide)

/-! ### Storage lemmas and claim theorems -/

/-- C6: `getVersions` returns the stored index's `versions` sequence as-is
and never fails: a missing index file and unparseable index content both
yield the empty sequence rather than an error. -/
theorem getVersions_total (st : StoreState) :
    (getVersions st = (readVersionIndex st.indexFile).versions) ∧
    (st.indexFile = IndexFileState.missing → getVersions st = []) ∧
    (st.indexFile = IndexFileState.corrupt → getVersions st = []) ∧
    (∀ i, st.indexFile = IndexFileState.stored i → getVersions st = i.versions) := by
  refine ⟨rfl, ?_, ?_, ?_⟩
  · intro h
    simp [getVersions, versionsOf, h, readVersionIndex]
  · intro h
    simp [getVersions, versionsOf, h, readVersionIndex]
  · intro i h
    simp [getVersions, versionsOf, h, readVersionIndex]

theorem getVersions_total_witness :
    getVersions ⟨"", IndexFileState.corrupt, []⟩ = [] :=
  (getVersions_total ⟨"", IndexFileState.corrupt, []⟩).2.2.1 rfl

/-- C5: if the snapshot content for timestamp `t` is readable,
`restoreVersion` succeeds and the live document's content becomes exactly
that snapshot content while the index file and the version folder are left
untouched; if the content is not found it fails and the whole state is
unchanged. -/
theorem restoreVersion_spec (st : StoreState) (t : Nat) :
    (∀ content, getVersionContent st t = some content →
      restoreVersion st t = ({ st with doc := content }, true)) ∧
    (getVersionContent st t = none → restoreVersion st t = (st, false)) := by
  constructor
  · intro content h
    unfold restoreVersion
    rw [h]
  · intro h
    unfold restoreVersion
    rw [h]

theorem restoreVersion_spec_witness :
    restoreVersion ⟨"x", IndexFileState.stored ⟨[⟨"n.md", 5, none, none, "n.md"⟩], 5⟩,
        [⟨"version_5_1.md", "hello"⟩]⟩ 5 =
      (⟨"hello", IndexFileState.stored ⟨[⟨"n.md", 5, none, none, "n.md"⟩], 5⟩,
        [⟨"version_5_1.md", "hello"⟩]⟩, true) :=
  (restoreVersion_spec _ 5).1 "hello" (by decide)

theorem deleteFirstChild_not_found :
    ∀ (cs : List VaultChild) (t : Nat),
      (∀ x ∈ cs, childMatches x.name t = false) → deleteFirstChild t cs = cs := by
  intro cs t
  induction cs with
  | nil => intro _; rfl
  | cons c rest ih =>
    intro h
    have hc : childMatches c.name t = false := h c (List.mem_cons_self c rest)
    simp only [deleteFirstChild, hc, Bool.false_eq_true, if_false]
    rw [ih (fun x hx => h x (List.mem_cons_of_mem c hx))]

theorem deleteFirstChild_found :
    ∀ (pre : List VaultChild) (c : VaultChild) (post : List VaultChild) (t : Nat),
      (∀ x ∈ pre, childMatches x.name t = false) → childMatches c.name t = true →
      deleteFirstChild t (pre ++ c :: post) = pre ++ post := by
  intro pre
  induction pre with
  | nil =>
    intro c post t _ hc
    simp [deleteFirstChild, hc]
  | cons p pre ih =>
    intro c post t hpre hc
    have hp : childMatches p.name t = false := hpre p (List.mem_cons_self p pre)
    simp only [List.cons_append, deleteFirstChild, hp, Bool.false_eq_true, if_false,
      List.append_eq]
    rw [ih c post t (fun x hx => hpre x (List.mem_cons_of_mem p hx)) hc]

/-- C10: `deleteVersion` removes from the index every entry whose timestamp
equals `t`, but deletes at most one content file from the version folder —
the first child in listing order whose filename encodes timestamp `t` (the
loop `break`s after the first delete); any further content files encoding the
same timestamp remain. -/
theorem deleteVersion_spec (st : StoreState) (t : Nat) (pre : List VaultChild)
    (c : VaultChild) (post : List VaultChild) :
    (versionsOf (deleteVersion st t) =
      (versionsOf st).filter (fun v => v.timestamp ≠ t)) ∧
    (st.children = pre ++ c :: post →
      (∀ x ∈ pre, childMatches x.name t = false) → childMatches c.name t = true →
      (deleteVersion st t).children = pre ++ post) ∧
    ((∀ x ∈ st.children, childMatches x.name t = false) →
      (deleteVersion st t).children = st.children) := by
  refine ⟨rfl, ?_, ?_⟩
  · intro hch hpre hc
    show deleteFirstChild t st.children = pre ++ post
    rw [hch]
    exact deleteFirstChild_found pre c post t hpre hc
  · intro h
    show deleteFirstChild t st.children = st.children
    exact deleteFirstChild_not_found st.children t h

theorem deleteVersion_spec_witness :
    (deleteVersion ⟨"", IndexFileState.stored ⟨[⟨"f.md", 5, none, none, "p"⟩], 5⟩,
        [⟨"a.txt", "q"⟩, ⟨"version_5_0.md", "1"⟩, ⟨"version_5_1.md", "2"⟩]⟩ 5).children =
      [⟨"a.txt", "q"⟩, ⟨"version_5_1.md", "2"⟩] :=
  (deleteVersion_spec ⟨"", IndexFileState.stored ⟨[⟨"f.md", 5, none, none, "p"⟩], 5⟩,
        [⟨"a.txt", "q"⟩, ⟨"version_5_0.md", "1"⟩, ⟨"version_5_1.md", "2"⟩]⟩ 5
      [⟨"a.txt", "q"⟩] ⟨"version_5_0.md", "1"⟩ [⟨"version_5_1.md", "2"⟩]).2.1
    rfl (by decide) (by decide)

/-- C8 counterexample: a state holding one version saved at timestamp 5
(`lastUpdated = 5`); `deleteVersion` then mutates and persists the index
(the entry and its content file are removed) but `lastUpdated` remains 5,
the timestamp of the earlier save — not the timestamp of the delete
mutation, which the code never reads. -/
theorem deleteVersion_lastUpdated_stale :
    deleteVersion ⟨"", IndexFileState.stored ⟨[⟨"f.md", 5, none, none, "p"⟩], 5⟩,
        [⟨"version_5_0.md", "x"⟩]⟩ 5 =
      ⟨"", IndexFileState.stored ⟨[], 5⟩, []⟩ := by decide

theorem lastUpdated_foldl_delete :
    ∀ (ds : List VersionMeta) (st : StoreState),
      (readVersionIndex
        ((ds.foldl (fun s v => deleteVersion s v.timestamp) st).indexFile)).lastUpdated =
      (readVersionIndex st.indexFile).lastUpdated := by
  intro ds
  induction ds with
  | nil => intro st; rfl
  | cons d ds ih =>
    intro st
    show (readVersionIndex
        ((ds.foldl (fun s v => deleteVersion s v.timestamp)
          (deleteVersion st d.timestamp)).indexFile)).lastUpdated = _
    rw [ih (deleteVersion st d.timestamp)]
    rfl

theorem lastUpdated_cleanup (M : Nat) (st : StoreState) :
    (readVersionIndex ((cleanupOldVersions M st).indexFile)).lastUpdated =
      (readVersionIndex st.indexFile).lastUpdated := by
  unfold cleanupOldVersions
  dsimp only
  split
  · exact lastUpdated_foldl_delete _ st
  · rfl

/-- C8 (amended): after `saveVersion` persists the index, `lastUpdated`
equals that save's timestamp (retention cleanup preserves it); `deleteVersion`
and `updateVersion` persist their modified `versions` list but write
`lastUpdated` back unchanged, so after those mutations it still holds the
timestamp of the last save, not the time of the mutation itself. -/
theorem lastUpdated_spec (M : Nat) (fn fp : String) (st : StoreState) (r : SaveReq)
    (t : Nat) (uName uDesc : Option String) :
    (readVersionIndex ((saveVersion M fn fp st r).1.indexFile)).lastUpdated =
      r.timestamp ∧
    (readVersionIndex ((deleteVersion st t).indexFile)).lastUpdated =
      (readVersionIndex st.indexFile).lastUpdated ∧
    (readVersionIndex ((updateVersion st t uName uDesc).1.indexFile)).lastUpdated =
      (readVersionIndex st.indexFile).lastUpdated := by
  refine ⟨?_, rfl, ?_⟩
  · show (readVersionIndex ((cleanupOldVersions M _).indexFile)).lastUpdated = r.timestamp
    rw [lastUpdated_cleanup]
    rfl
  · unfold updateVersion
    dsimp only
    cases hf : findIndexT (fun v => v.timestamp = t)
        (readVersionIndex st.indexFile).versions with
    | none => rfl
    | some i =>
      dsimp only
      cases hg : (readVersionIndex st.indexFile).versions[i]? with
      | none => rfl
      | some v => rfl

theorem findIndexT_eq_some :
    ∀ (l : List VersionMeta) (p : VersionMeta → Bool) (i : Nat) (hi : i < l.length),
      p (l.get ⟨i, hi⟩) = true →
      (∀ j (hj : j < l.length), j < i → p (l.get ⟨j, hj⟩) = false) →
      findIndexT p l = some i := by
  intro l
  induction l with
  | nil =>
    intro p i hi
    simp at hi
  | cons v rest ih =>
    intro p i hi hp hmin
    cases i with
    | zero =>
      have hv : p v = true := hp
      simp [findIndexT, hv]
    | succ i =>
      have hi2 : i < rest.length := by simpa using hi
      have hp2 : p (rest.get ⟨i, hi2⟩) = true := hp
      have hmin2 : ∀ j (hj : j < rest.length), j < i → p (rest.get ⟨j, hj⟩) = false := by
        intro j hj hji
        exact hmin (j + 1) (by simpa using hj) (by omega)
      have hv : p v = false := hmin 0 (by simp) (by omega)
      have hrest := ih p i hi2 hp2 hmin2
      simp [findIndexT, hv, hrest]

theorem findIndexT_eq_none :
    ∀ (l : List VersionMeta) (p : VersionMeta → Bool),
      (∀ v ∈ l, p v = false) → findIndexT p l = none := by
  intro l
  induction l with
  | nil => intro p _; rfl
  | cons v rest ih =>
    intro p h
    have hv : p v = false := h v (List.mem_cons_self v rest)
    simp [findIndexT, hv, ih p (fun x hx => h x (List.mem_cons_of_mem v hx))]

/-- C4: if the index holds an entry with timestamp `t` (at first matching
position `i`), `updateVersion` succeeds and rewrites exactly that entry:
`name` and `description` are overwritten iff they are provided (a provided
empty string overwrites), the remaining fields and every other entry are kept
verbatim, and the index is persisted with its `lastUpdated` unchanged. If no
entry has timestamp `t`, it fails and the state is unmodified. -/
theorem updateVersion_spec (st : StoreState) (t : Nat) (uName uDesc : Option String)
    (i : Nat) :
    ((hi : i < (versionsOf st).length) → ((versionsOf st).get ⟨i, hi⟩).timestamp = t →
      (∀ j (hj : j < (versionsOf st).length), j < i →
        ((versionsOf st).get ⟨j, hj⟩).timestamp ≠ t) →
      updateVersion st t uName uDesc =
        (StoreState.mk st.doc
          (IndexFileState.stored (VersionIndex.mk
            ((versionsOf st).set i (VersionMeta.mk
              ((versionsOf st).get ⟨i, hi⟩).filename
              ((versionsOf st).get ⟨i, hi⟩).timestamp
              (match uName with
                | some n => some n
                | none => ((versionsOf st).get ⟨i, hi⟩).name)
              (match uDesc with
                | some d => some d
                | none => ((versionsOf st).get ⟨i, hi⟩).description)
              ((versionsOf st).get ⟨i, hi⟩).originalPath))
            (readVersionIndex st.indexFile).lastUpdated))
          st.children, true)) ∧
    ((∀ v ∈ versionsOf st, v.timestamp ≠ t) →
      updateVersion st t uName uDesc = (st, false)) := by
  constructor
  · intro hi hts hmin
    have hfind : findIndexT (fun v => v.timestamp = t)
        (readVersionIndex st.indexFile).versions = some i :=
      findIndexT_eq_some (versionsOf st) _ i hi (by simpa using hts)
        (fun j hj hji => by simpa using hmin j hj hji)
    have hget : (readVersionIndex st.indexFile).versions[i]? =
        some ((versionsOf st).get ⟨i, hi⟩) := by
      show (versionsOf st)[i]? = _
      rw [List.getElem?_eq_getElem hi]
      simp [List.get_eq_getElem]
    unfold updateVersion
    dsimp only
    rw [hfind]
    dsimp only
    rw [hget]
    dsimp only
    cases uName <;> cases uDesc <;> rfl
  · intro h
    have hfind : findIndexT (fun v => v.timestamp = t)
        (readVersionIndex st.indexFile).versions = none :=
      findIndexT_eq_none (versionsOf st) _ (fun v hv => by simpa using h v hv)
    unfold updateVersion
    dsimp only
    rw [hfind]

theorem updateVersion_spec_witness :
    updateVersion ⟨"d", IndexFileState.stored
        ⟨[⟨"f.md", 5, some "a", some "b", "p"⟩, ⟨"f.md", 7, none, none, "p"⟩], 9⟩, []⟩
      7 (some "") none =
      (⟨"d", IndexFileState.stored
        ⟨[⟨"f.md", 5, some "a", some "b", "p"⟩, ⟨"f.md", 7, some "", none, "p"⟩], 9⟩, []⟩,
       true) :=
  (updateVersion_spec ⟨"d", IndexFileState.stored
        ⟨[⟨"f.md", 5, some "a", some "b", "p"⟩, ⟨"f.md", 7, none, none, "p"⟩], 9⟩, []⟩
      7 (some "") none 1).1 (by decide) (by decide) (by decide)

theorem versionsOf_delete (st : StoreState) (t : Nat) :
    versionsOf (deleteVersion st t) =
      (versionsOf st).filter (fun v => v.timestamp ≠ t) := rfl

theorem foldl_delete_keep :
    ∀ (ds : List VersionMeta) (st : StoreState) (keep : List VersionMeta),
      versionsOf st = keep ++ ds →
      ((keep ++ ds).map VersionMeta.timestamp).Nodup →
      versionsOf (ds.foldl (fun s v => deleteVersion s v.timestamp) st) = keep := by
  intro ds
  induction ds with
  | nil =>
    intro st keep hst _
    simpa using hst
  | cons d ds ih =>
    intro st keep hst hnd
    have hndapp := hnd
    rw [List.map_append, List.nodup_append] at hndapp
    have hdisj : ∀ x ∈ keep, x.timestamp ≠ d.timestamp := by
      intro x hx hxd
      refine hndapp.2.2 (List.mem_map_of_mem VersionMeta.timestamp hx) ?_
      rw [hxd]
      simp
    have hds : ∀ x ∈ ds, x.timestamp ≠ d.timestamp := by
      have h2 := hndapp.2.1
      rw [List.map_cons, List.nodup_cons] at h2
      intro x hx hxd
      exact h2.1 (hxd ▸ List.mem_map_of_mem VersionMeta.timestamp hx)
    have hstep : versionsOf (deleteVersion st d.timestamp) = keep ++ ds := by
      rw [versionsOf_delete, hst, List.filter_append]
      have h1 : keep.filter (fun v => v.timestamp ≠ d.timestamp) = keep :=
        List.filter_eq_self.mpr (fun a ha => by simpa using hdisj a ha)
      have h2 : (d :: ds).filter (fun v => v.timestamp ≠ d.timestamp) = ds := by
        rw [List.filter_cons_of_neg (by simp)]
        exact List.filter_eq_self.mpr (fun a ha => by simpa using hds a ha)
      rw [h1, h2]
    have hnd2 : ((keep ++ ds).map VersionMeta.timestamp).Nodup := by
      have hsub := List.Sublist.map VersionMeta.timestamp
        (List.Sublist.append (List.Sublist.refl keep) (List.sublist_cons_self d ds))
      exact List.Nodup.sublist hsub hnd
    show versionsOf (ds.foldl (fun s v => deleteVersion s v.timestamp)
        (deleteVersion st d.timestamp)) = keep
    exact ih (deleteVersion st d.timestamp) keep hstep hnd2

theorem versionsOf_cleanup (M : Nat) (st : StoreState)
    (h : ((versionsOf st).map VersionMeta.timestamp).Nodup) :
    versionsOf (cleanupOldVersions M st) = (versionsOf st).take M := by
  unfold cleanupOldVersions
  dsimp only
  split
  · apply foldl_delete_keep
    · exact (List.take_append_drop M (versionsOf st)).symm
    · show ((((versionsOf st).take M ++ (versionsOf st).drop M)).map
        VersionMeta.timestamp).Nodup
      rw [List.take_append_drop]
      exact h
  · next hge =>
    rw [not_lt] at hge
    exact (List.take_of_length_le hge).symm

theorem versionsOf_save (M : Nat) (fn fp : String) (st : StoreState) (r : SaveReq)
    (h : ((toMeta fn fp r :: versionsOf st).map VersionMeta.timestamp).Nodup) :
    versionsOf (saveVersion M fn fp st r).1 =
      (toMeta fn fp r :: versionsOf st).take M :=
  versionsOf_cleanup M _ h

theorem take_cons_take (x : VersionMeta) (l : List VersionMeta) (M : Nat)
    (hM : 0 < M) : (x :: l.take M).take M = (x :: l).take M := by
  cases M with
  | zero => omega
  | succ m =>
    rw [List.take_succ_cons, List.take_succ_cons, List.take_take]
    rw [min_eq_left (Nat.le_succ m)]

theorem saveSeq_versions (M : Nat) (fn fp : String) (hM : 0 < M) :
    ∀ (reqs done : List SaveReq) (st : StoreState),
      versionsOf st = ((done.map (toMeta fn fp)).reverse).take M →
      ((done ++ reqs).map SaveReq.timestamp).Nodup →
      versionsOf (saveSeq M fn fp st reqs) =
        (((done ++ reqs).map (toMeta fn fp)).reverse).take M := by
  intro reqs
  induction reqs with
  | nil =>
    intro done st hst hnd
    simpa using hst
  | cons r rest ih =>
    intro done st hst hnd
    have hmapts : ∀ (l : List SaveReq),
        (l.map (toMeta fn fp)).map VersionMeta.timestamp = l.map SaveReq.timestamp := by
      intro l
      rw [List.map_map]
      rfl
    have h2 : (((done.map (toMeta fn fp)).reverse).map VersionMeta.timestamp) =
        (done.map SaveReq.timestamp).reverse := by
      rw [List.map_reverse, hmapts done]
    have hsub : List.Sublist ((versionsOf st).map VersionMeta.timestamp)
        ((done.map SaveReq.timestamp).reverse) := by
      rw [hst, ← h2]
      exact List.Sublist.map VersionMeta.timestamp (List.take_sublist M _)
    have hndapp := hnd
    rw [List.map_append, List.nodup_append] at hndapp
    have hnotin : r.timestamp ∉ (versionsOf st).map VersionMeta.timestamp := by
      intro hmem
      have hmem2 : r.timestamp ∈ done.map SaveReq.timestamp := by
        have := hsub.subset hmem
        simpa using this
      exact hndapp.2.2 hmem2 (by simp)
    have hndtail : ((versionsOf st).map VersionMeta.timestamp).Nodup :=
      List.Nodup.sublist hsub (List.nodup_reverse.mpr hndapp.1)
    have h1 : ((toMeta fn fp r :: versionsOf st).map VersionMeta.timestamp).Nodup := by
      rw [List.map_cons, List.nodup_cons]
      exact ⟨hnotin, hndtail⟩
    have hstep := versionsOf_save M fn fp st r h1
    rw [hst, take_cons_take (toMeta fn fp r) ((done.map (toMeta fn fp)).reverse) M hM]
      at hstep
    have hform : toMeta fn fp r :: (done.map (toMeta fn fp)).reverse =
        (((done ++ [r]).map (toMeta fn fp)).reverse) := by
      rw [List.map_append, List.reverse_append]
      simp
    rw [hform] at hstep
    have happ : ((done ++ [r]) ++ rest) = done ++ (r :: rest) := by simp
    have hfin := ih (done ++ [r]) (saveVersion M fn fp st r).1 hstep
      (by rw [happ]; exact hnd)
    rw [happ] at hfin
    exact hfin

/-- C3: starting from a fresh document (no index), after saving
`maxVersions + K` versions (K > 0) with pairwise-distinct timestamps — each
save triggering retention eviction — the index holds exactly `maxVersions`
entries, and they are precisely the metas of the K+1-th through last saves,
ordered newest-first. -/
theorem saveSeq_retention (M K : Nat) (fn fp doc : String) (reqs : List SaveReq)
    (hM : 0 < M) (hK : 0 < K) (hlen : reqs.length = M + K)
    (hnd : (reqs.map SaveReq.timestamp).Nodup) :
    versionsOf (saveSeq M fn fp ⟨doc, IndexFileState.missing, []⟩ reqs) =
      ((reqs.drop K).map (toMeta fn fp)).reverse ∧
    (versionsOf (saveSeq M fn fp ⟨doc, IndexFileState.missing, []⟩ reqs)).length = M := by
  have hbase : versionsOf ⟨doc, IndexFileState.missing, []⟩ =
      ((([] : List SaveReq).map (toMeta fn fp)).reverse).take M := by
    simp [versionsOf, readVersionIndex]
  have hmain := saveSeq_versions M fn fp hM reqs [] ⟨doc, IndexFileState.missing, []⟩
    hbase (by simpa using hnd)
  rw [List.nil_append] at hmain
  have hlenm : (reqs.map (toMeta fn fp)).length = M + K := by simp [hlen]
  have hsplit : (reqs.map (toMeta fn fp)).reverse =
      ((reqs.map (toMeta fn fp)).drop K).reverse ++
        ((reqs.map (toMeta fn fp)).take K).reverse := by
    rw [← List.reverse_append, List.take_append_drop]
  have hlen2 : ((reqs.map (toMeta fn fp)).drop K).reverse.length = M := by
    rw [List.length_reverse, List.length_drop, hlenm]
    omega
  have htake : ((reqs.map (toMeta fn fp)).reverse).take M =
      ((reqs.map (toMeta fn fp)).drop K).reverse := by
    rw [hsplit, List.take_left' hlen2]
  have hdropmap : (reqs.map (toMeta fn fp)).drop K = (reqs.drop K).map (toMeta fn fp) :=
    (List.map_drop (toMeta fn fp) reqs K).symm
  constructor
  · rw [hmain, htake, hdropmap]
  · rw [hmain, htake, hdropmap, List.length_reverse, List.length_map, List.length_drop,
      hlen]
    omega

theorem saveSeq_retention_witness :
    versionsOf (saveSeq 2 "f.md" "f.md" ⟨"d", IndexFileState.missing, []⟩
        [⟨1, 0, none, none⟩, ⟨2, 0, none, none⟩, ⟨3, 0, some "v3", none⟩]) =
      ((([⟨1, 0, none, none⟩, ⟨2, 0, none, none⟩,
          ⟨3, 0, some "v3", none⟩] : List SaveReq).drop 1).map
        (toMeta "f.md" "f.md")).reverse ∧
    (versionsOf (saveSeq 2 "f.md" "f.md" ⟨"d", IndexFileState.missing, []⟩
        [⟨1, 0, none, none⟩, ⟨2, 0, none, none⟩, ⟨3, 0, some "v3", none⟩])).length = 2 :=
  saveSeq_retention 2 1 "f.md" "f.md" "d" _ (by decide) (by decide) (by decide)
    (by decide)

end VersionViews
